import Mathlib

/-!
Shallow embedding of `knn_dtw_class.py` (KNN classifier with dynamic time
warping).  Machine floats are modelled as exact rationals (`ℚ`); the
`sys.maxint` sentinel written into unreached cost cells is kept as the exact
integer `2^63 - 1`.  The DTW cost matrix, the predecessor matrix and the
backtracking loop of `_dtw_match`, the distance-matrix builder
(`_dist_matrix`, both branches, including the stride slicing
`x[i][::subsample_step]` and the never-incremented `dm_count`), and the
voting stage of `predict` are embedded directly from the source.
-/

unseal Rat.add Rat.sub Rat.mul Rat.inv

namespace KnnDtw

/-- One-dimensional Euclidean pointwise metric `np.linalg.norm(x - y)` on
scalar observations, the default `d` of `_dtw_distance` (written with an
explicit case split so that it evaluates by kernel reduction). -/
def dAbs (x y : ℚ) : ℚ := if x ≤ y then y - x else x - y

/-- The `sys.maxint` value used to initialise the cost matrix
(`cost = sys.maxint * np.ones((M, N))`). -/
def sentinel : ℚ := 9223372036854775807

/-- The window-restricted inner loop of the main fill runs
`j in xrange(max(1, i - W), min(N, i + W))`; `inWin N W i j` says cell
`(i, j)` is inside that range for row `i ≥ 1`. -/
def inWin (N W i j : Nat) : Prop := max 1 (i - W) ≤ j ∧ j < min N (i + W)

instance (N W i j : Nat) : Decidable (inWin N W i j) := by
  unfold inWin; infer_instance

/-- Binary minimum written with an explicit case split (equal to `min`). -/
def min2 (x y : ℚ) : ℚ := if x ≤ y then x else y

/-- `min(choices)` over the three predecessor cells. -/
def min3 (x y z : ℚ) : ℚ := min2 x (min2 y z)

/-- First row of the cost matrix:
`cost[0, j] = cost[0, j-1] + d(ts_a[0], ts_b[j])`. -/
def row0 (d : Nat → Nat → ℚ) : Nat → ℚ
  | 0 => d 0 0
  | j + 1 => row0 d j + d 0 (j + 1)

/-- Row `i ≥ 1` of `_dtw_distance`'s cost matrix, given the previous row:
column 0 comes from the boundary pass, interior cells inside the window take
`min(choices) + d`, cells never written keep the sentinel. -/
def rowStep (d : Nat → Nat → ℚ) (N W : Nat) (prev : Nat → ℚ) (i : Nat) : Nat → ℚ
  | 0 => prev 0 + d i 0
  | j + 1 =>
    if inWin N W i (j + 1) then
      min3 (prev j) (rowStep d N W prev i j) (prev (j + 1)) + d i (j + 1)
    else sentinel

/-- The cost matrix of `_dtw_distance`, row by row. -/
def costRow (d : Nat → Nat → ℚ) (N W : Nat) : Nat → Nat → ℚ
  | 0 => row0 d
  | i + 1 => rowStep d N W (costRow d N W i) (i + 1)

/-- Cell `(i, j)` of `_dtw_distance`'s cost matrix. -/
def cost (d : Nat → Nat → ℚ) (N W i j : Nat) : ℚ := costRow d N W i j

/-- The value selected by `_dtw_match`'s tie-breaking branch
(diagonal preferred, then left, then up). -/
def chosenVal (dg l u : ℚ) : ℚ :=
  if dg ≤ l ∧ dg ≤ u then dg else if l ≤ dg ∧ l ≤ u then l else u

/-- The predecessor tag recorded by `_dtw_match`:
`0` diagonal, `1` left, `-1` up. -/
def chosenTag (dg l u : ℚ) : Int :=
  if dg ≤ l ∧ dg ≤ u then 0 else if l ≤ dg ∧ l ≤ u then 1 else -1

/-- Row `i ≥ 1` of `_dtw_match`'s cost matrix (same recursion as
`_dtw_distance` but written through the tie-breaking branch). -/
def mrowStep (d : Nat → Nat → ℚ) (N W : Nat) (prev : Nat → ℚ) (i : Nat) : Nat → ℚ
  | 0 => prev 0 + d i 0
  | j + 1 =>
    if inWin N W i (j + 1) then
      chosenVal (prev j) (mrowStep d N W prev i j) (prev (j + 1)) + d i (j + 1)
    else sentinel

/-- The cost matrix of `_dtw_match`, row by row. -/
def mcostRow (d : Nat → Nat → ℚ) (N W : Nat) : Nat → Nat → ℚ
  | 0 => row0 d
  | i + 1 => mrowStep d N W (mcostRow d N W i) (i + 1)

/-- Cell `(i, j)` of `_dtw_match`'s cost matrix. -/
def mcost (d : Nat → Nat → ℚ) (N W i j : Nat) : ℚ := mcostRow d N W i j

/-- The predecessor matrix of `_dtw_match`: initialised to zeros, column 0
set to `-1`, row 0 set to `1`, window cells set by the tie-breaking branch;
cells never written keep the default `0`. -/
def pred (d : Nat → Nat → ℚ) (N W i j : Nat) : Int :=
  if i = 0 then (if j = 0 then 0 else 1)
  else if j = 0 then -1
  else if inWin N W i j then
    chosenTag (mcost d N W (i - 1) (j - 1)) (mcost d N W i (j - 1)) (mcost d N W (i - 1) j)
  else 0

/-- One iteration of the backtracking `while` loop: follow the recorded
predecessor (`1`: left, `-1`: up, anything else: diagonal). -/
def backStep (d : Nat → Nat → ℚ) (N W x y : Nat) : Nat × Nat :=
  if pred d N W x y = 1 then (x, y - 1)
  else if pred d N W x y = -1 then (x - 1, y)
  else (x - 1, y - 1)

/-- The backtracking loop of `_dtw_match` modelled with explicit fuel:
starting from `(x, y)` it returns the visited cells in ascending order
(each iteration of the Python loop prepends the current cell), `none` if the
fuel runs out before `(0, 0)` is reached. -/
def walkB (d : Nat → Nat → ℚ) (N W : Nat) : Nat → Nat → Nat → Option (List (Nat × Nat))
  | _, 0, 0 => some []
  | 0, _, _ => none
  | fuel + 1, x, y =>
    (walkB d N W fuel (backStep d N W x y).1 (backStep d N W x y).2).map
      (fun l => l ++ [(x, y)])

/-- Pointwise distance between elements `i` of `a` and `j` of `b`. -/
def dIdx {α : Type} [Inhabited α] (dist : α → α → ℚ) (a b : List α) (i j : Nat) : ℚ :=
  dist (a.getD i default) (b.getD j default)

/-- `_dtw_distance(ts_a, ts_b, d)` with warping window `W`: the bottom-right
cell `cost[-1, -1]` of the cost matrix. -/
def dtw_distance {α : Type} [Inhabited α] (a b : List α) (W : Nat) (dist : α → α → ℚ) : ℚ :=
  cost (dIdx dist a b) b.length W (a.length - 1) (b.length - 1)

/-- Error kind raised on invalid input (in the Python source an empty
sequence makes the first element access `ts_a[0]` / `ts_b[0]` fail before
any cost cell is computed). -/
inductive DtwError where
  | invalidInput
deriving DecidableEq

/-- `_dtw_distance` as a fallible operation: empty input fails, otherwise
the DTW distance is returned. -/
def dtw_distanceE {α : Type} [Inhabited α] (a b : List α) (W : Nat) (dist : α → α → ℚ) :
    Except DtwError ℚ :=
  if a.isEmpty ∨ b.isEmpty then .error .invalidInput else .ok (dtw_distance a b W dist)

/-- The alignment path returned by `_dtw_match`: `(0, 0)` prepended to the
cells visited by the backtracking loop, in ascending order. -/
def dtw_path {α : Type} [Inhabited α] (a b : List α) (W : Nat) (dist : α → α → ℚ) :
    List (Nat × Nat) :=
  (0, 0) ::
    (walkB (dIdx dist a b) b.length W ((a.length - 1) + (b.length - 1))
      (a.length - 1) (b.length - 1)).getD []

/-- The valid single step moves of an alignment path: `(i, j)` advances by
`(0,1)`, `(1,0)` or `(1,1)`. -/
def stepOk (p q : Nat × Nat) : Prop :=
  (q.1 = p.1 ∧ q.2 = p.2 + 1) ∨ (q.1 = p.1 + 1 ∧ q.2 = p.2) ∨
    (q.1 = p.1 + 1 ∧ q.2 = p.2 + 1)

/-- A path cell is in the always-filled boundary or inside the window. -/
def filledOrBoundary (N W : Nat) (c : Nat × Nat) : Prop :=
  c.1 = 0 ∨ c.2 = 0 ∨ inWin N W c.1 c.2

instance (N W : Nat) (c : Nat × Nat) : Decidable (filledOrBoundary N W c) := by
  unfold filledOrBoundary; infer_instance

/-- Cost of a path recomputed by summing the pointwise distance over its
index pairs. -/
def pathCost {α : Type} [Inhabited α] (dist : α → α → ℚ) (a b : List α)
    (p : List (Nat × Nat)) : ℚ :=
  (p.map (fun c => dIdx dist a b c.1 c.2)).sum

/-- The slicing `l[::s]` applied by `_dist_matrix` to each series. -/
def subsample (s : Nat) (l : List ℚ) : List ℚ :=
  (List.range ((l.length + (s - 1)) / s)).map (fun t => l.getD (t * s) 0)

/-- The `(i, j)` pairs visited by the condensed loop
(`i in xrange(0, n-1)`, `j in xrange(i+1, n)`), in iteration order. -/
def samePairs (n : Nat) : List (Nat × Nat) :=
  (List.range n).flatMap
    (fun i => ((List.range n).filter (fun j => decide (i < j))).map (fun j => (i, j)))

/-- The condensed vector built by the same-set branch of `_dist_matrix`:
`dm` starts as `n*(n-1)/2` zeros and every pairwise distance is written to
index `dm_count`, which is initialised to `0` and never incremented. -/
def dmCondensed (x : List (List ℚ)) (W s : Nat) : List ℚ :=
  (samePairs x.length).foldl
    (fun v p =>
      v.set 0 (dtw_distance (subsample s (x.getD p.1 [])) (subsample s (x.getD p.2 [])) W dAbs))
    (List.replicate (x.length * (x.length - 1) / 2) 0)

/-- Index of pair `(i, j)`, `i < j`, in a scipy condensed distance vector. -/
def condIndex (n i j : Nat) : Nat := i * n - i * (i + 1) / 2 + (j - i - 1)

/-- `scipy.spatial.distance.squareform` expanding a condensed vector of an
`n`-point set to the full square matrix (zero diagonal, symmetric reads). -/
def squareform (v : List ℚ) (n i j : Nat) : ℚ :=
  if i = j then 0
  else if i < j then v.getD (condIndex n i j) 0
  else v.getD (condIndex n j i) 0

/-- Entry `(i, j)` of the matrix returned by the same-set branch of
`_dist_matrix`. -/
def dist_matrix_same (x : List (List ℚ)) (W s i j : Nat) : ℚ :=
  squareform (dmCondensed x W s) x.length i j

/-- Entry `(i, j)` of the matrix returned by the cross-set branch of
`_dist_matrix`: one `_dtw_distance` call on the stride-sliced series. -/
def dist_matrix_full (x y : List (List ℚ)) (W s i j : Nat) : ℚ :=
  dtw_distance (subsample s (x.getD i [])) (subsample s (y.getD j [])) W dAbs

/-- Sum of the pointwise distances over the index rectangle
`[0..i] × [0..j]`. -/
def rectSum (d : Nat → Nat → ℚ) (i j : Nat) : ℚ :=
  (Finset.range (i + 1)).sum (fun p => (Finset.range (j + 1)).sum (fun q => d p q))

/-- Sum of the pointwise distances over all `M × N` index pairs. -/
def totalDist (d : Nat → Nat → ℚ) (M N : Nat) : ℚ :=
  (Finset.range M).sum (fun p => (Finset.range N).sum (fun q => d p q))

/-- Ordering used to model `argsort` on one distance row: sort the
`(index, value)` pairs by value, ties by index (a deterministic rendering of
numpy's implementation-defined tie order). -/
def pairLe (p q : Nat × ℚ) : Prop := p.2 < q.2 ∨ (p.2 = q.2 ∧ p.1 ≤ q.1)

instance : DecidableRel pairLe := fun p q => by unfold pairLe; infer_instance

instance : IsTotal (Nat × ℚ) pairLe := by
  constructor
  intro p q
  unfold pairLe
  rcases lt_trichotomy p.2 q.2 with h | h | h
  · exact Or.inl (Or.inl h)
  · rcases Nat.le_total p.1 q.1 with h' | h'
    · exact Or.inl (Or.inr ⟨h, h'⟩)
    · exact Or.inr (Or.inr ⟨h.symm, h'⟩)
  · exact Or.inr (Or.inl h)

instance : IsTrans (Nat × ℚ) pairLe := by
  constructor
  intro p q r hpq hqr
  unfold pairLe at *
  rcases hpq with h1 | ⟨h1, h1'⟩ <;> rcases hqr with h2 | ⟨h2, h2'⟩
  · exact Or.inl (h1.trans h2)
  · exact Or.inl (h2 ▸ h1)
  · exact Or.inl (h1 ▸ h2)
  · exact Or.inr ⟨h1.trans h2, h1'.trans h2'⟩

/-- `dm.argsort()` on one row: indices of the row sorted by ascending
distance. -/
def argsortRow (row : List ℚ) : List Nat :=
  (List.insertionSort pairLe row.enum).map Prod.fst

/-- One step of the mode scan: replace the current best candidate when the
next value has a strictly larger count, or an equal count and a smaller
value. -/
def modeStep (l : List ℤ) (best : ℤ × Nat) (v : ℤ) : ℤ × Nat :=
  if best.2 < l.count v ∨ (l.count v = best.2 ∧ v < best.1) then (v, l.count v) else best

/-- `scipy.stats.mode` on a list of labels: the most frequent value (ties
broken towards the smallest value) together with its count. -/
def modePair (l : List ℤ) : ℤ × Nat := l.foldl (modeStep l) (0, 0)

/-- The labels of the `k_eff = min(n_col, n_neighbors)` nearest training
items for one query row. -/
def knnLabels (row : List ℚ) (labels : List ℤ) (k : Nat) : List ℤ :=
  ((argsortRow row).take (min row.length k)).map (fun idx => labels.getD idx 0)

/-- The voting stage of `predict` for one query row: the mode label of the
`k_eff` nearest training labels, and `mode count / n_neighbors` (the
configured `k`) as the confidence. -/
def predictRow (row : List ℚ) (labels : List ℤ) (k : Nat) : ℤ × ℚ :=
  ((modePair (knnLabels row labels k)).1,
    ((modePair (knnLabels row labels k)).2 : ℚ) / (k : ℚ))

/-- `predict` over a whole query set, using the cross-set branch of the
distance-matrix builder for the rows. -/
def predictAll (train : List (List ℚ)) (labels : List ℤ) (k W s : Nat)
    (query : List (List ℚ)) : List (ℤ × ℚ) :=
  (List.range query.length).map
    (fun r =>
      predictRow ((List.range train.length).map (fun c => dist_matrix_full query train W s r c))
        labels k)

end KnnDtw

namespace KnnDtw

theorem min2_eq_min (x y : ℚ) : min2 x y = min x y := by
  unfold min2; rw [min_def]

theorem min3_le_left (x y z : ℚ) : min3 x y z ≤ x := by
  unfold min3 min2; split_ifs <;> linarith

theorem le_min3 {w x y z : ℚ} (hx : w ≤ x) (hy : w ≤ y) (hz : w ≤ z) : w ≤ min3 x y z := by
  unfold min3 min2; split_ifs <;> linarith

theorem min3_mono {x y z x' y' z' : ℚ} (hx : x ≤ x') (hy : y ≤ y') (hz : z ≤ z') :
    min3 x y z ≤ min3 x' y' z' := by
  unfold min3 min2; split_ifs <;> linarith

theorem min3_comm23 (x y z : ℚ) : min3 x y z = min3 x z y := by
  unfold min3 min2; split_ifs <;> linarith

theorem chosenVal_eq_min3 (dg l u : ℚ) : chosenVal dg l u = min3 dg l u := by
  unfold chosenVal min3 min2
  split_ifs <;> simp_all <;> linarith

theorem dAbs_symm (x y : ℚ) : dAbs x y = dAbs y x := by
  unfold dAbs; split_ifs <;> linarith

theorem dAbs_self (x : ℚ) : dAbs x x = 0 := by
  unfold dAbs; split_ifs <;> linarith

theorem dAbs_nonneg (x y : ℚ) : 0 ≤ dAbs x y := by
  unfold dAbs; split_ifs <;> linarith

theorem sentinel_nonneg : (0 : ℚ) ≤ sentinel := by unfold sentinel; norm_num

theorem cost_zz (d : Nat → Nat → ℚ) (N W : Nat) : cost d N W 0 0 = d 0 0 := rfl

theorem cost_zs (d : Nat → Nat → ℚ) (N W j : Nat) :
    cost d N W 0 (j + 1) = cost d N W 0 j + d 0 (j + 1) := rfl

theorem cost_sz (d : Nat → Nat → ℚ) (N W i : Nat) :
    cost d N W (i + 1) 0 = cost d N W i 0 + d (i + 1) 0 := rfl

theorem cost_ss (d : Nat → Nat → ℚ) (N W i j : Nat) :
    cost d N W (i + 1) (j + 1) =
      if inWin N W (i + 1) (j + 1) then
        min3 (cost d N W i j) (cost d N W (i + 1) j) (cost d N W i (j + 1)) + d (i + 1) (j + 1)
      else sentinel := rfl

theorem mcost_zz (d : Nat → Nat → ℚ) (N W : Nat) : mcost d N W 0 0 = d 0 0 := rfl

theorem mcost_zs (d : Nat → Nat → ℚ) (N W j : Nat) :
    mcost d N W 0 (j + 1) = mcost d N W 0 j + d 0 (j + 1) := rfl

theorem mcost_sz (d : Nat → Nat → ℚ) (N W i : Nat) :
    mcost d N W (i + 1) 0 = mcost d N W i 0 + d (i + 1) 0 := rfl

theorem mcost_ss (d : Nat → Nat → ℚ) (N W i j : Nat) :
    mcost d N W (i + 1) (j + 1) =
      if inWin N W (i + 1) (j + 1) then
        chosenVal (mcost d N W i j) (mcost d N W (i + 1) j) (mcost d N W i (j + 1)) +
          d (i + 1) (j + 1)
      else sentinel := rfl

theorem rowStep_congr (d : Nat → Nat → ℚ) (N W : Nat) (p q : Nat → ℚ)
    (h : ∀ j, p j = q j) (i : Nat) : ∀ j, rowStep d N W p i j = rowStep d N W q i j := by
  intro j
  induction j with
  | zero => simp [rowStep, h 0]
  | succ j ih => simp only [rowStep, h, ih]

theorem mrowStep_eq_rowStep (d : Nat → Nat → ℚ) (N W : Nat) (p : Nat → ℚ) (i : Nat) :
    ∀ j, mrowStep d N W p i j = rowStep d N W p i j := by
  intro j
  induction j with
  | zero => rfl
  | succ j ih => simp only [mrowStep, rowStep, ih, chosenVal_eq_min3]

theorem mcost_eq_cost (d : Nat → Nat → ℚ) (N W : Nat) :
    ∀ i j, mcost d N W i j = cost d N W i j := by
  intro i
  induction i with
  | zero => intro j; rfl
  | succ i ih =>
    intro j
    show mrowStep d N W (mcostRow d N W i) (i + 1) j = rowStep d N W (costRow d N W i) (i + 1) j
    rw [mrowStep_eq_rowStep]
    exact rowStep_congr d N W _ _ ih (i + 1) j

end KnnDtw

namespace KnnDtw

theorem pred_row0 (d : Nat → Nat → ℚ) (N W j : Nat) (hj : j ≠ 0) : pred d N W 0 j = 1 := by
  unfold pred; simp [hj]

theorem pred_col0 (d : Nat → Nat → ℚ) (N W i : Nat) (hi : i ≠ 0) : pred d N W i 0 = -1 := by
  unfold pred; simp [hi]

theorem backStep_spec (d : Nat → Nat → ℚ) (N W : Nat) (x y : Nat) (h : ¬(x = 0 ∧ y = 0)) :
    stepOk (backStep d N W x y) (x, y) ∧
      (backStep d N W x y).1 + (backStep d N W x y).2 < x + y ∧
      (backStep d N W x y).1 ≤ x ∧ (backStep d N W x y).2 ≤ y := by
  rcases Nat.eq_zero_or_pos x with hx | hx
  · subst hx
    have hy : y ≠ 0 := by omega
    have hb : backStep d N W 0 y = (0, y - 1) := by
      unfold backStep
      rw [pred_row0 d N W y hy]
      norm_num
    rw [hb]
    exact ⟨Or.inl ⟨rfl, by simp <;> omega⟩, by simp <;> omega, by simp, by simp <;> omega⟩
  · rcases Nat.eq_zero_or_pos y with hy | hy
    · subst hy
      have hb : backStep d N W x 0 = (x - 1, 0) := by
        unfold backStep
        rw [pred_col0 d N W x (by omega)]
        norm_num
      rw [hb]
      exact ⟨Or.inr (Or.inl ⟨by simp <;> omega, rfl⟩), by simp <;> omega,
        by simp <;> omega, by simp⟩
    · unfold backStep
      split_ifs with h1 h2
      · exact ⟨Or.inl ⟨rfl, by simp <;> omega⟩, by simp <;> omega, by simp, by simp <;> omega⟩
      · exact ⟨Or.inr (Or.inl ⟨by simp <;> omega, rfl⟩), by simp <;> omega,
          by simp <;> omega, by simp⟩
      · exact ⟨Or.inr (Or.inr ⟨by simp <;> omega, by simp <;> omega⟩), by simp <;> omega,
          by simp <;> omega, by simp <;> omega⟩

theorem walkB_zero (d : Nat → Nat → ℚ) (N W f : Nat) : walkB d N W f 0 0 = some [] := by
  cases f <;> rfl

theorem walkB_succ (d : Nat → Nat → ℚ) (N W f x y : Nat) (h : ¬(x = 0 ∧ y = 0)) :
    walkB d N W (f + 1) x y =
      (walkB d N W f (backStep d N W x y).1 (backStep d N W x y).2).map
        (fun l => l ++ [(x, y)]) := by
  match x, y with
  | 0, 0 => exact absurd ⟨rfl, rfl⟩ h
  | 0, y + 1 => rfl
  | x + 1, y => rfl

theorem walkB_fuel (d : Nat → Nat → ℚ) (N W : Nat) :
    ∀ f x y, x + y ≤ f → walkB d N W f x y = walkB d N W (x + y) x y := by
  intro f
  induction f using Nat.strongRecOn with
  | ind f ih =>
    match f with
    | 0 =>
      intro x y h
      have hx : x = 0 := by omega
      have hy : y = 0 := by omega
      subst hx; subst hy; rfl
    | f + 1 =>
      intro x y h
      by_cases h0 : x = 0 ∧ y = 0
      · obtain ⟨hx, hy⟩ := h0; subst hx; subst hy
        rw [walkB_zero, walkB_zero]
      · obtain ⟨k, hk⟩ : ∃ k, x + y = k + 1 := ⟨x + y - 1, by omega⟩
        obtain ⟨-, hlt, -, -⟩ := backStep_spec d N W x y h0
        rw [walkB_succ d N W f x y h0, hk, walkB_succ d N W k x y h0,
          ih f (by omega) _ _ (by omega), ih k (by omega) _ _ (by omega)]

end KnnDtw

namespace KnnDtw

theorem walk_spec (d : Nat → Nat → ℚ) (N W : Nat) :
    ∀ n x y, x + y = n →
      ∃ w, walkB d N W (x + y) x y = some w ∧
        ((0, 0) :: w).getLast? = some (x, y) ∧
        List.Chain' stepOk ((0, 0) :: w) ∧
        max x y ≤ w.length ∧ w.length ≤ x + y := by
  intro n
  induction n using Nat.strongRecOn with
  | ind n ih =>
    intro x y hn
    by_cases h0 : x = 0 ∧ y = 0
    · obtain ⟨hx, hy⟩ := h0; subst hx; subst hy
      refine ⟨[], walkB_zero d N W 0, by simp, by simp, by simp, by simp⟩
    · obtain ⟨hstep, hlt, hx1, hy1⟩ := backStep_spec d N W x y h0
      obtain ⟨k, hk⟩ : ∃ k, x + y = k + 1 := ⟨x + y - 1, by omega⟩
      obtain ⟨w', hw', hlast', hchain', hlen1', hlen2'⟩ :=
        ih ((backStep d N W x y).1 + (backStep d N W x y).2) (by omega)
          (backStep d N W x y).1 (backStep d N W x y).2 rfl
      refine ⟨w' ++ [(x, y)], ?_, ?_, ?_, ?_, ?_⟩
      · rw [hk, walkB_succ d N W k x y h0,
          walkB_fuel d N W k (backStep d N W x y).1 (backStep d N W x y).2 (by omega), hw']
        rfl
      · rw [← List.cons_append, List.getLast?_concat]
      · rw [← List.cons_append, List.chain'_append]
        refine ⟨hchain', by simp, ?_⟩
        intro p hp q hq
        simp only [List.head?_cons, Option.mem_def, Option.some.injEq] at hq
        rw [hlast'] at hp
        simp only [Option.mem_def, Option.some.injEq] at hp
        subst hp; subst hq
        exact hstep
      · have h1 := Nat.max_le.mp hlen1'
        rw [Nat.max_le]
        simp only [List.length_append, List.length_cons, List.length_nil]
        unfold stepOk at hstep
        simp only at hstep
        rcases hstep with ⟨e1, e2⟩ | ⟨e1, e2⟩ | ⟨e1, e2⟩ <;> omega
      · simp only [List.length_append, List.length_cons, List.length_nil]
        omega

end KnnDtw

namespace KnnDtw

/-- Claim C3: for every pair of non-empty sequences and every window, the path
returned by `_dtw_match` starts at `(0,0)`, ends at `(M-1,N-1)`, each
consecutive step moves by `(0,1)`, `(1,0)` or `(1,1)`, and its length lies
between `max M N` and `M + N - 1`. -/
theorem dtw_path_valid {α : Type} [Inhabited α] (a b : List α) (W : Nat) (dist : α → α → ℚ)
    (ha : a ≠ []) (hb : b ≠ []) :
    (dtw_path a b W dist).head? = some (0, 0) ∧
      (dtw_path a b W dist).getLast? = some (a.length - 1, b.length - 1) ∧
      List.Chain' stepOk (dtw_path a b W dist) ∧
      max a.length b.length ≤ (dtw_path a b W dist).length ∧
      (dtw_path a b W dist).length ≤ a.length + b.length - 1 := by
  have hM : 1 ≤ a.length := List.length_pos.mpr ha
  have hN : 1 ≤ b.length := List.length_pos.mpr hb
  obtain ⟨w, hw, hlast, hchain, hlen1, hlen2⟩ :=
    walk_spec (dIdx dist a b) b.length W ((a.length - 1) + (b.length - 1))
      (a.length - 1) (b.length - 1) rfl
  have hpath : dtw_path a b W dist = (0, 0) :: w := by
    unfold dtw_path
    rw [hw]
    rfl
  rw [hpath]
  have h1 := Nat.max_le.mp hlen1
  refine ⟨rfl, hlast, hchain, ?_, ?_⟩
  · rw [Nat.max_le]
    simp only [List.length_cons]
    omega
  · simp only [List.length_cons]
    omega

/-- Claim C10: for non-empty inputs and any window the backtracking loop of
`_dtw_match` terminates: with fuel `M + N - 2` it already reaches `(0, 0)`
(more fuel does not change the result), after at most `M + N - 2`
iterations. -/
theorem dtw_match_backtrack_terminates {α : Type} [Inhabited α] (a b : List α) (W : Nat)
    (dist : α → α → ℚ) (ha : a ≠ []) (hb : b ≠ []) :
    (∀ f, a.length + b.length - 2 ≤ f →
        walkB (dIdx dist a b) b.length W f (a.length - 1) (b.length - 1) =
          walkB (dIdx dist a b) b.length W (a.length + b.length - 2)
            (a.length - 1) (b.length - 1)) ∧
      ∃ w,
        walkB (dIdx dist a b) b.length W (a.length + b.length - 2)
            (a.length - 1) (b.length - 1) = some w ∧
          w.length ≤ a.length + b.length - 2 := by
  have hM : 1 ≤ a.length := List.length_pos.mpr ha
  have hN : 1 ≤ b.length := List.length_pos.mpr hb
  have he : a.length + b.length - 2 = (a.length - 1) + (b.length - 1) := by omega
  obtain ⟨w, hw, -, -, -, hlen2⟩ :=
    walk_spec (dIdx dist a b) b.length W ((a.length - 1) + (b.length - 1))
      (a.length - 1) (b.length - 1) rfl
  constructor
  · intro f hf
    rw [he, walkB_fuel (dIdx dist a b) b.length W f _ _ (by omega)]
  · exact ⟨w, by rw [he]; exact hw, by omega⟩

theorem mcost_step (d : Nat → Nat → ℚ) (N W : Nat) :
    ∀ x y, ¬(x = 0 ∧ y = 0) → filledOrBoundary N W (x, y) →
      mcost d N W x y = mcost d N W (backStep d N W x y).1 (backStep d N W x y).2 + d x y := by
  intro x y h0 hf
  match x, y with
  | 0, 0 => exact absurd ⟨rfl, rfl⟩ h0
  | 0, j + 1 =>
    have hb : backStep d N W 0 (j + 1) = (0, j) := by
      unfold backStep
      rw [pred_row0 d N W (j + 1) (by omega)]
      norm_num
    rw [hb, mcost_zs]
  | i + 1, 0 =>
    have hb : backStep d N W (i + 1) 0 = (i, 0) := by
      unfold backStep
      rw [pred_col0 d N W (i + 1) (by omega)]
      norm_num
    rw [hb, mcost_sz]
  | i + 1, j + 1 =>
    have hw : inWin N W (i + 1) (j + 1) := by
      simp only [filledOrBoundary] at hf
      rcases hf with h | h | h
      · omega
      · omega
      · exact h
    have hp : pred d N W (i + 1) (j + 1) =
        chosenTag (mcost d N W i j) (mcost d N W (i + 1) j) (mcost d N W i (j + 1)) := by
      unfold pred
      simp [hw]
    rw [mcost_ss, if_pos hw]
    unfold backStep
    rw [hp]
    by_cases c1 : mcost d N W i j ≤ mcost d N W (i + 1) j ∧
        mcost d N W i j ≤ mcost d N W i (j + 1)
    · have ht : chosenTag (mcost d N W i j) (mcost d N W (i + 1) j) (mcost d N W i (j + 1)) =
          0 := by
        unfold chosenTag
        rw [if_pos c1]
      rw [ht]
      norm_num
      unfold chosenVal
      rw [if_pos c1]
    · by_cases c2 : mcost d N W (i + 1) j ≤ mcost d N W i j ∧
          mcost d N W (i + 1) j ≤ mcost d N W i (j + 1)
      · have ht : chosenTag (mcost d N W i j) (mcost d N W (i + 1) j)
            (mcost d N W i (j + 1)) = 1 := by
          unfold chosenTag
          rw [if_neg c1, if_pos c2]
        rw [ht]
        norm_num
        unfold chosenVal
        rw [if_neg c1, if_pos c2]
      · have ht : chosenTag (mcost d N W i j) (mcost d N W (i + 1) j)
            (mcost d N W i (j + 1)) = -1 := by
          unfold chosenTag
          rw [if_neg c1, if_neg c2]
        rw [ht]
        norm_num
        unfold chosenVal
        rw [if_neg c1, if_neg c2]

theorem walk_sum (d : Nat → Nat → ℚ) (N W : Nat) :
    ∀ n x y, x + y = n → ∀ w, walkB d N W (x + y) x y = some w →
      (∀ c ∈ (0, 0) :: w, filledOrBoundary N W c) →
      (((0, 0) :: w).map (fun c => d c.1 c.2)).sum = mcost d N W x y := by
  intro n
  induction n using Nat.strongRecOn with
  | ind n ih =>
    intro x y hn w hw hfob
    by_cases h0 : x = 0 ∧ y = 0
    · obtain ⟨hx, hy⟩ := h0; subst hx; subst hy
      rw [walkB_zero] at hw
      obtain rfl : w = [] := by simpa using hw.symm
      simp [mcost_zz]
    · obtain ⟨-, hlt, -, -⟩ := backStep_spec d N W x y h0
      obtain ⟨k, hk⟩ : ∃ k, x + y = k + 1 := ⟨x + y - 1, by omega⟩
      obtain ⟨w', hw', -, -, -, -⟩ :=
        walk_spec d N W ((backStep d N W x y).1 + (backStep d N W x y).2)
          (backStep d N W x y).1 (backStep d N W x y).2 rfl
      have hweq : w = w' ++ [(x, y)] := by
        rw [hk, walkB_succ d N W k x y h0,
          walkB_fuel d N W k (backStep d N W x y).1 (backStep d N W x y).2 (by omega),
          hw'] at hw
        simpa using hw.symm
      subst hweq
      have hsum :
          (((0, 0) :: (w' ++ [(x, y)])).map (fun c => d c.1 c.2)).sum =
            (((0, 0) :: w').map (fun c => d c.1 c.2)).sum + d x y := by
        rw [← List.cons_append, List.map_append, List.sum_append]
        simp
      rw [hsum]
      have hfob' : ∀ c ∈ (0, 0) :: w', filledOrBoundary N W c := by
        intro c hc
        apply hfob
        rcases List.mem_cons.mp hc with h | h
        · exact List.mem_cons.mpr (Or.inl h)
        · exact List.mem_cons.mpr (Or.inr (List.mem_append.mpr (Or.inl h)))
      rw [ih ((backStep d N W x y).1 + (backStep d N W x y).2) (by omega)
          (backStep d N W x y).1 (backStep d N W x y).2 rfl w' hw' hfob']
      rw [← mcost_step d N W x y h0 (hfob (x, y) (by simp))]

/-- Claim C4: when every cell of the returned alignment path is boundary or inside
the window (no window truncation on the path), the pointwise distances
summed along `_dtw_match`'s path equal the scalar `_dtw_distance` returns
(the tie-breaking recursion computes the same cost matrix as the min-based
one). -/
theorem dtw_path_cost_eq_distance {α : Type} [Inhabited α] (a b : List α) (W : Nat)
    (dist : α → α → ℚ) (ha : a ≠ []) (hb : b ≠ [])
    (hfob : ∀ c ∈ dtw_path a b W dist, filledOrBoundary b.length W c) :
    pathCost dist a b (dtw_path a b W dist) = dtw_distance a b W dist := by
  obtain ⟨w, hw, -, -, -, -⟩ :=
    walk_spec (dIdx dist a b) b.length W ((a.length - 1) + (b.length - 1))
      (a.length - 1) (b.length - 1) rfl
  have hpath : dtw_path a b W dist = (0, 0) :: w := by
    unfold dtw_path
    rw [hw]
    rfl
  rw [hpath] at hfob ⊢
  unfold pathCost
  have := walk_sum (dIdx dist a b) b.length W ((a.length - 1) + (b.length - 1))
    (a.length - 1) (b.length - 1) rfl w hw hfob
  rw [this, mcost_eq_cost]
  rfl

end KnnDtw

namespace KnnDtw

theorem dtw_path_valid_witness :
    (dtw_path [(0 : ℚ), 2] [0, 1, 2] 5 dAbs).head? = some (0, 0) ∧
      (dtw_path [(0 : ℚ), 2] [0, 1, 2] 5 dAbs).getLast? =
        some ([(0 : ℚ), 2].length - 1, [(0 : ℚ), 1, 2].length - 1) ∧
      List.Chain' stepOk (dtw_path [(0 : ℚ), 2] [0, 1, 2] 5 dAbs) ∧
      max [(0 : ℚ), 2].length [(0 : ℚ), 1, 2].length ≤
        (dtw_path [(0 : ℚ), 2] [0, 1, 2] 5 dAbs).length ∧
      (dtw_path [(0 : ℚ), 2] [0, 1, 2] 5 dAbs).length ≤
        [(0 : ℚ), 2].length + [(0 : ℚ), 1, 2].length - 1 :=
  dtw_path_valid [(0 : ℚ), 2] [0, 1, 2] 5 dAbs (by decide) (by decide)

theorem dtw_match_backtrack_terminates_witness :
    (∀ f, [(0 : ℚ), 2].length + [(0 : ℚ), 1, 2].length - 2 ≤ f →
        walkB (dIdx dAbs [(0 : ℚ), 2] [0, 1, 2]) [(0 : ℚ), 1, 2].length 5 f
            ([(0 : ℚ), 2].length - 1) ([(0 : ℚ), 1, 2].length - 1) =
          walkB (dIdx dAbs [(0 : ℚ), 2] [0, 1, 2]) [(0 : ℚ), 1, 2].length 5
            ([(0 : ℚ), 2].length + [(0 : ℚ), 1, 2].length - 2)
            ([(0 : ℚ), 2].length - 1) ([(0 : ℚ), 1, 2].length - 1)) ∧
      ∃ w,
        walkB (dIdx dAbs [(0 : ℚ), 2] [0, 1, 2]) [(0 : ℚ), 1, 2].length 5
            ([(0 : ℚ), 2].length + [(0 : ℚ), 1, 2].length - 2)
            ([(0 : ℚ), 2].length - 1) ([(0 : ℚ), 1, 2].length - 1) = some w ∧
          w.length ≤ [(0 : ℚ), 2].length + [(0 : ℚ), 1, 2].length - 2 :=
  dtw_match_backtrack_terminates [(0 : ℚ), 2] [0, 1, 2] 5 dAbs (by decide) (by decide)

theorem dtw_path_cost_eq_distance_witness :
    pathCost dAbs [(0 : ℚ), 2] [0, 1, 2] (dtw_path [(0 : ℚ), 2] [0, 1, 2] 10000 dAbs) =
      dtw_distance [(0 : ℚ), 2] [0, 1, 2] 10000 dAbs :=
  dtw_path_cost_eq_distance [(0 : ℚ), 2] [0, 1, 2] 10000 dAbs (by decide) (by decide)
    (by decide)

theorem cost_nonneg (d : Nat → Nat → ℚ) (N W : Nat) (hd : ∀ i j, 0 ≤ d i j) :
    ∀ i j, 0 ≤ cost d N W i j := by
  intro i
  induction i with
  | zero =>
    intro j
    induction j with
    | zero => exact hd 0 0
    | succ j ihj =>
      rw [cost_zs]
      have := hd 0 (j + 1)
      linarith
  | succ i ihi =>
    intro j
    induction j with
    | zero =>
      rw [cost_sz]
      have h1 := ihi 0
      have h2 := hd (i + 1) 0
      linarith
    | succ j ihj =>
      rw [cost_ss]
      split_ifs with hw
      · have h1 := le_min3 (ihi j) ihj (ihi (j + 1))
        have h2 := hd (i + 1) (j + 1)
        linarith
      · exact sentinel_nonneg

theorem cost_diag_zero (d : Nat → Nat → ℚ) (M W : Nat) (hd : ∀ i j, 0 ≤ d i j)
    (hdiag : ∀ i, d i i = 0) (hW : 1 ≤ W) :
    ∀ i, i < M → cost d M W i i = 0 := by
  intro i
  induction i with
  | zero =>
    intro _
    rw [cost_zz]
    exact hdiag 0
  | succ i ih =>
    intro hi
    have hw : inWin M W (i + 1) (i + 1) := by
      unfold inWin
      constructor
      · rw [Nat.max_le]
        omega
      · rw [Nat.lt_min]
        omega
    rw [cost_ss, if_pos hw, hdiag (i + 1), add_zero]
    have h1 := min3_le_left (cost d M W i i) (cost d M W (i + 1) i) (cost d M W i (i + 1))
    have h0 := ih (by omega)
    have h2 : 0 ≤ min3 (cost d M W i i) (cost d M W (i + 1) i) (cost d M W i (i + 1)) :=
      le_min3 (cost_nonneg d M W hd i i) (cost_nonneg d M W hd (i + 1) i)
        (cost_nonneg d M W hd i (i + 1))
    linarith

/-- Claim C7: with an exact pointwise metric the self-distance is `0` whenever the
window permits the diagonal (`W ≥ 1`); concretely, `[[0],[1],[2]]` against
itself under the default window has distance `0` and diagonal path
`[(0,0),(1,1),(2,2)]`. -/
theorem dtw_self_distance_zero :
    (∀ (α : Type) (inst : Inhabited α) (a : List α) (dist : α → α → ℚ) (W : Nat),
        (∀ u v, 0 ≤ dist u v) → (∀ u, dist u u = 0) → a ≠ [] → 1 ≤ W →
          dtw_distance a a W dist = 0) ∧
      dtw_distance [(0 : ℚ), 1, 2] [0, 1, 2] 10000 dAbs = 0 ∧
      dtw_path [(0 : ℚ), 1, 2] [0, 1, 2] 10000 dAbs = [(0, 0), (1, 1), (2, 2)] := by
  refine ⟨?_, by decide, by decide⟩
  intro α inst a dist W hnn hdiag ha hW
  have hM : 1 ≤ a.length := List.length_pos.mpr ha
  unfold dtw_distance
  exact cost_diag_zero (dIdx dist a a) a.length W
    (fun i j => hnn _ _) (fun i => hdiag _) hW (a.length - 1) (by omega)

theorem dtw_self_distance_zero_witness : dtw_distance [(5 : ℚ)] [5] 3 dAbs = 0 :=
  dtw_self_distance_zero.1 ℚ inferInstance [5] dAbs 3 (fun u v => dAbs_nonneg u v)
    (fun u => dAbs_self u) (by decide) (by decide)

end KnnDtw

namespace KnnDtw

theorem cost_transpose (d dT : Nat → Nat → ℚ) (M N W : Nat)
    (hd : ∀ i j, dT j i = d i j) (hM : M ≤ W + 1) (hN : N ≤ W + 1) :
    ∀ n i j, i + j = n → i < M → j < N → cost dT M W j i = cost d N W i j := by
  intro n
  induction n using Nat.strongRecOn with
  | ind n ih =>
    intro i j hn hi hj
    match i, j with
    | 0, 0 =>
      rw [cost_zz, cost_zz]
      exact hd 0 0
    | 0, j + 1 =>
      rw [cost_sz, cost_zs, ih (0 + j) (by omega) 0 j rfl hi (by omega), hd 0 (j + 1)]
    | i + 1, 0 =>
      rw [cost_zs, cost_sz, ih (i + 0) (by omega) i 0 rfl (by omega) hj, hd (i + 1) 0]
    | i + 1, j + 1 =>
      have hw1 : inWin N W (i + 1) (j + 1) := by
        unfold inWin
        rw [Nat.max_le, Nat.lt_min]
        omega
      have hw2 : inWin M W (j + 1) (i + 1) := by
        unfold inWin
        rw [Nat.max_le, Nat.lt_min]
        omega
      rw [cost_ss, cost_ss, if_pos hw1, if_pos hw2,
        ih (i + j) (by omega) i j rfl (by omega) (by omega),
        ih (i + (j + 1)) (by omega) i (j + 1) rfl (by omega) hj,
        ih ((i + 1) + j) (by omega) (i + 1) j rfl hi (by omega),
        hd (i + 1) (j + 1), min3_comm23]

/-- Claim C5 counterexample: the pointwise metric `dAbs` is symmetric, yet with
window `1` the two orders of the same pair of length-3 series give DTW
distances `1` and `0` — the windowed fill is not symmetric. -/
theorem dtw_distance_not_symm_counterexample :
    (∀ u v : ℚ, dAbs u v = dAbs v u) ∧
      dtw_distance [(0 : ℚ), 1, 1] [0, 0, 1] 1 dAbs = 1 ∧
      dtw_distance [(0 : ℚ), 0, 1] [0, 1, 1] 1 dAbs = 0 :=
  ⟨dAbs_symm, by decide, by decide⟩

/-- Claim C5 (amended): `dtw_distance` is symmetric for a symmetric pointwise
metric provided the window does not truncate the fill
(`max M N ≤ W + 1`); for narrower windows the asymmetric fill range can
break symmetry. -/
theorem dtw_distance_symm {α : Type} [Inhabited α] (a b : List α) (W : Nat)
    (dist : α → α → ℚ) (hsym : ∀ u v, dist u v = dist v u)
    (ha : a ≠ []) (hb : b ≠ [])
    (hWa : a.length ≤ W + 1) (hWb : b.length ≤ W + 1) :
    dtw_distance a b W dist = dtw_distance b a W dist := by
  have hM : 1 ≤ a.length := List.length_pos.mpr ha
  have hN : 1 ≤ b.length := List.length_pos.mpr hb
  have hd : ∀ i j, dIdx dist b a j i = dIdx dist a b i j := by
    intro i j
    unfold dIdx
    exact hsym _ _
  unfold dtw_distance
  exact (cost_transpose (dIdx dist a b) (dIdx dist b a) a.length b.length W hd hWa hWb
    ((a.length - 1) + (b.length - 1)) (a.length - 1) (b.length - 1) rfl
    (by omega) (by omega)).symm

theorem dtw_distance_symm_witness :
    dtw_distance [(0 : ℚ), 1] [2] 5 dAbs = dtw_distance [2] [(0 : ℚ), 1] 5 dAbs :=
  dtw_distance_symm [(0 : ℚ), 1] [2] 5 dAbs dAbs_symm (by decide) (by decide)
    (by decide) (by decide)

/-- Claim C8: `_dtw_distance` fails (and only fails) on an empty input sequence:
the fallible embedding returns the `InvalidInput` error exactly when one of
the inputs is empty, and an ordinary value otherwise; on failure no result is produced. -/
theorem dtw_distanceE_empty_invalid {α : Type} [Inhabited α] (a b : List α) (W : Nat)
    (dist : α → α → ℚ) :
    dtw_distanceE a b W dist = Except.error DtwError.invalidInput ↔ (a = [] ∨ b = []) := by
  unfold dtw_distanceE
  split_ifs with h
  · simp only [true_iff]
    rcases h with h | h
    · exact Or.inl (List.isEmpty_iff.mp h)
    · exact Or.inr (List.isEmpty_iff.mp h)
  · simp only [reduceCtorEq, false_iff]
    intro hc
    rcases hc with hc | hc
    · exact h (Or.inl (List.isEmpty_iff.mpr hc))
    · exact h (Or.inr (List.isEmpty_iff.mpr hc))

theorem dtw_distanceE_empty_invalid_witness :
    dtw_distanceE ([] : List ℚ) [1] 5 dAbs = Except.error DtwError.invalidInput :=
  (dtw_distanceE_empty_invalid ([] : List ℚ) [1] 5 dAbs).mpr (Or.inl rfl)

end KnnDtw

namespace KnnDtw

theorem inWin_mono (N W1 W2 i j : Nat) (hW : W1 ≤ W2) (h : inWin N W1 i j) :
    inWin N W2 i j := by
  unfold inWin at *
  rw [Nat.max_le, Nat.lt_min] at *
  omega

theorem cost_col_indep (d : Nat → Nat → ℚ) (N W1 W2 : Nat) :
    ∀ i, cost d N W1 i 0 = cost d N W2 i 0 := by
  intro i
  induction i with
  | zero => rfl
  | succ i ih => rw [cost_sz, cost_sz, ih]

theorem rectSum_zz (d : Nat → Nat → ℚ) : rectSum d 0 0 = d 0 0 := by
  unfold rectSum
  simp

theorem rectSum_zs (d : Nat → Nat → ℚ) (j : Nat) :
    rectSum d 0 (j + 1) = rectSum d 0 j + d 0 (j + 1) := by
  unfold rectSum
  rw [Finset.sum_range_one, Finset.sum_range_one, Finset.sum_range_succ]

theorem rectSum_sz (d : Nat → Nat → ℚ) (i : Nat) :
    rectSum d (i + 1) 0 = rectSum d i 0 + d (i + 1) 0 := by
  unfold rectSum
  rw [Finset.sum_range_succ, Finset.sum_range_one]

theorem rect_step (d : Nat → Nat → ℚ) (hd : ∀ i j, 0 ≤ d i j) (i j : Nat) :
    rectSum d i j + d (i + 1) (j + 1) ≤ rectSum d (i + 1) (j + 1) := by
  unfold rectSum
  conv_rhs => rw [Finset.sum_range_succ]
  have h1 : (Finset.range (i + 1)).sum (fun p => (Finset.range (j + 1)).sum (fun q => d p q)) ≤
      (Finset.range (i + 1)).sum (fun p => (Finset.range (j + 1 + 1)).sum (fun q => d p q)) := by
    apply Finset.sum_le_sum
    intro p hp
    conv_rhs => rw [Finset.sum_range_succ]
    have := hd p (j + 1)
    linarith
  have h2 : d (i + 1) (j + 1) ≤ (Finset.range (j + 1 + 1)).sum (fun q => d (i + 1) q) := by
    apply Finset.single_le_sum (fun q _ => hd (i + 1) q)
    exact Finset.mem_range.mpr (by omega)
  linarith

theorem rect_le_total (d : Nat → Nat → ℚ) (M N : Nat) (hd : ∀ i j, 0 ≤ d i j)
    (i j : Nat) (hi : i < M) (hj : j < N) : rectSum d i j ≤ totalDist d M N := by
  unfold rectSum totalDist
  have h1 : (Finset.range (i + 1)).sum (fun p => (Finset.range (j + 1)).sum (fun q => d p q)) ≤
      (Finset.range (i + 1)).sum (fun p => (Finset.range N).sum (fun q => d p q)) := by
    apply Finset.sum_le_sum
    intro p hp
    apply Finset.sum_le_sum_of_subset_of_nonneg
    · exact Finset.range_subset.mpr (by omega)
    · exact fun q _ _ => hd p q
  have h2 : (Finset.range (i + 1)).sum (fun p => (Finset.range N).sum (fun q => d p q)) ≤
      (Finset.range M).sum (fun p => (Finset.range N).sum (fun q => d p q)) := by
    apply Finset.sum_le_sum_of_subset_of_nonneg
    · exact Finset.range_subset.mpr (by omega)
    · exact fun p _ _ => Finset.sum_nonneg (fun q _ => hd p q)
  linarith

theorem diag_fob (N W i j : Nat) (hw : inWin N W (i + 1) (j + 1)) :
    filledOrBoundary N W (i, j) := by
  unfold filledOrBoundary
  match i, j with
  | 0, j => exact Or.inl rfl
  | i + 1, 0 => exact Or.inr (Or.inl rfl)
  | i + 1, j + 1 =>
    refine Or.inr (Or.inr ?_)
    unfold inWin at *
    rw [Nat.max_le, Nat.lt_min] at *
    omega

theorem cost_le_rect (d : Nat → Nat → ℚ) (N W : Nat) (hd : ∀ i j, 0 ≤ d i j) :
    ∀ n i j, i + j = n → filledOrBoundary N W (i, j) → cost d N W i j ≤ rectSum d i j := by
  intro n
  induction n using Nat.strongRecOn with
  | ind n ih =>
    intro i j hn hf
    match i, j with
    | 0, 0 =>
      rw [cost_zz, rectSum_zz]
    | 0, j + 1 =>
      rw [cost_zs, rectSum_zs]
      have h1 := ih (0 + j) (by omega) 0 j rfl (Or.inl rfl)
      linarith
    | i + 1, 0 =>
      rw [cost_sz, rectSum_sz]
      have h1 := ih (i + 0) (by omega) i 0 rfl (Or.inr (Or.inl rfl))
      linarith
    | i + 1, j + 1 =>
      have hw : inWin N W (i + 1) (j + 1) := by
        simp only [filledOrBoundary] at hf
        rcases hf with h | h | h
        · omega
        · omega
        · exact h
      rw [cost_ss, if_pos hw]
      have h1 := min3_le_left (cost d N W i j) (cost d N W (i + 1) j) (cost d N W i (j + 1))
      have h2 := ih (i + j) (by omega) i j rfl (diag_fob N W i j hw)
      have h3 := rect_step d hd i j
      linarith

theorem cost_window_mono (d : Nat → Nat → ℚ) (M N W1 W2 : Nat) (hd : ∀ i j, 0 ≤ d i j)
    (hbound : totalDist d M N ≤ sentinel) (hW : W1 ≤ W2) :
    ∀ n i j, i + j = n → i < M → j < N → cost d N W2 i j ≤ cost d N W1 i j := by
  intro n
  induction n using Nat.strongRecOn with
  | ind n ih =>
    intro i j hn hi hj
    match i, j with
    | 0, j => exact le_of_eq rfl
    | i + 1, 0 => exact le_of_eq (cost_col_indep d N W2 W1 (i + 1))
    | i + 1, j + 1 =>
      by_cases hw1 : inWin N W1 (i + 1) (j + 1)
      · have hw2 := inWin_mono N W1 W2 (i + 1) (j + 1) hW hw1
        rw [cost_ss d N W1, cost_ss d N W2, if_pos hw1, if_pos hw2]
        have h1 := ih (i + j) (by omega) i j rfl (by omega) (by omega)
        have h2 := ih ((i + 1) + j) (by omega) (i + 1) j rfl hi (by omega)
        have h3 := ih (i + (j + 1)) (by omega) i (j + 1) rfl (by omega) hj
        have := min3_mono h1 h2 h3
        linarith
      · rw [cost_ss d N W1, if_neg hw1]
        by_cases hw2 : inWin N W2 (i + 1) (j + 1)
        · have h1 := cost_le_rect d N W2 hd ((i + 1) + (j + 1)) (i + 1) (j + 1) rfl
            (Or.inr (Or.inr hw2))
          have h2 := rect_le_total d M N hd (i + 1) (j + 1) hi hj
          linarith
        · rw [cost_ss d N W2, if_neg hw2]

/-- Claim C6 counterexample: with pointwise distances of the order of the
`sys.maxint` sentinel, the narrower window `W1 = 0` returns the sentinel
while the wider window `W2 = 1` returns `6 * sentinel` — strictly larger, so
"narrower window distance ≥ wider window distance" fails as stated. -/
theorem dtw_window_mono_counterexample :
    dtw_distance [(0 : ℚ), 3 * sentinel] [3 * sentinel, 0] 0 dAbs <
      dtw_distance [(0 : ℚ), 3 * sentinel] [3 * sentinel, 0] 1 dAbs := by decide

/-- Claim C6 (amended): for a non-negative pointwise metric whose total pointwise
distance mass stays below the `sys.maxint` sentinel, widening the warping
window can only decrease (or keep) the returned DTW distance; the
counterexample shows the bound is needed. -/
theorem dtw_distance_window_mono {α : Type} [Inhabited α] (a b : List α) (W1 W2 : Nat)
    (dist : α → α → ℚ) (hd : ∀ u v, 0 ≤ dist u v)
    (hbound : totalDist (dIdx dist a b) a.length b.length ≤ sentinel)
    (hW : W1 < W2) (ha : a ≠ []) (hb : b ≠ []) :
    dtw_distance a b W2 dist ≤ dtw_distance a b W1 dist := by
  have hM : 1 ≤ a.length := List.length_pos.mpr ha
  have hN : 1 ≤ b.length := List.length_pos.mpr hb
  unfold dtw_distance
  exact cost_window_mono (dIdx dist a b) a.length b.length W1 W2 (fun i j => hd _ _)
    hbound (by omega) ((a.length - 1) + (b.length - 1)) (a.length - 1) (b.length - 1)
    rfl (by omega) (by omega)

theorem dtw_distance_window_mono_witness :
    dtw_distance [(0 : ℚ), 1] [0, 1] 2 dAbs ≤ dtw_distance [(0 : ℚ), 1] [0, 1] 1 dAbs :=
  dtw_distance_window_mono [(0 : ℚ), 1] [0, 1] 1 2 dAbs (fun u v => dAbs_nonneg u v)
    (by decide) (by decide) (by decide) (by decide)

end KnnDtw

namespace KnnDtw

theorem modeStep_invariant (l : List ℤ) (best : ℤ × Nat) (v : ℤ)
    (h : best.2 = 0 ∨ best.2 = l.count best.1) :
    (modeStep l best v).2 = 0 ∨ (modeStep l best v).2 = l.count (modeStep l best v).1 := by
  unfold modeStep
  split_ifs with hc
  · exact Or.inr rfl
  · exact h

theorem modeStep_ge (l : List ℤ) (best : ℤ × Nat) (v : ℤ) :
    best.2 ≤ (modeStep l best v).2 := by
  unfold modeStep
  split_ifs with hc
  · rcases hc with hc | hc
    · simp only
      omega
    · simp only [hc.1, le_refl]
  · exact le_refl _

theorem modeStep_count (l : List ℤ) (best : ℤ × Nat) (v : ℤ) :
    l.count v ≤ (modeStep l best v).2 := by
  unfold modeStep
  split_ifs with hc
  · exact le_refl _
  · push_neg at hc
    omega

theorem mode_fold (l : List ℤ) :
    ∀ (rest : List ℤ) (best : ℤ × Nat),
      (best.2 = 0 ∨ best.2 = l.count best.1) →
      ((rest.foldl (modeStep l) best).2 = 0 ∨
          (rest.foldl (modeStep l) best).2 = l.count (rest.foldl (modeStep l) best).1) ∧
        best.2 ≤ (rest.foldl (modeStep l) best).2 ∧
        ∀ v ∈ rest, l.count v ≤ (rest.foldl (modeStep l) best).2 := by
  intro rest
  induction rest with
  | nil =>
    intro best h
    exact ⟨h, le_refl _, by simp⟩
  | cons v rest ih =>
    intro best h
    simp only [List.foldl_cons]
    obtain ⟨h1, h2, h3⟩ := ih (modeStep l best v) (modeStep_invariant l best v h)
    refine ⟨h1, le_trans (modeStep_ge l best v) h2, ?_⟩
    intro u hu
    rcases List.mem_cons.mp hu with rfl | hu
    · exact le_trans (modeStep_count l best u) h2
    · exact h3 u hu

theorem modePair_spec (l : List ℤ) (hl : l ≠ []) :
    (modePair l).2 = l.count (modePair l).1 ∧ ∀ v ∈ l, l.count v ≤ (modePair l).2 := by
  obtain ⟨h1, -, h3⟩ := mode_fold l l (0, 0) (Or.inl rfl)
  have key : ∀ v ∈ l, l.count v ≤ (modePair l).2 := h3
  rcases h1 with h1 | h1
  · obtain ⟨v, hv⟩ := List.exists_mem_of_ne_nil l hl
    have hc := List.count_pos_iff.mpr hv
    have := key v hv
    unfold modePair at *
    omega
  · exact ⟨h1, key⟩

theorem sorted_pairs_getD (row : List ℚ) :
    ∀ p ∈ List.insertionSort pairLe row.enum, row.getD p.1 0 = p.2 := by
  intro p hp
  have hmem : p ∈ row.enum := (List.perm_insertionSort pairLe row.enum).subset hp
  have hget : row.get? p.1 = some p.2 := List.mem_enum_iff_get?.mp hmem
  rw [List.getD_eq_get?, hget]
  rfl

theorem argsortRow_length (row : List ℚ) : (argsortRow row).length = row.length := by
  unfold argsortRow
  rw [List.length_map, List.length_insertionSort, List.enum_length]

theorem knnLabels_length (row : List ℚ) (labels : List ℤ) (k : Nat) :
    (knnLabels row labels k).length = min row.length k := by
  unfold knnLabels
  rw [List.length_map, List.length_take, argsortRow_length]
  omega

end KnnDtw

namespace KnnDtw

/-- Claim C2: for one query row of `predict`, the predicted label is a most
frequent label among the `k_eff = min(k, #train)` nearest training labels,
the confidence is that label's count divided by the configured `k`, and the
selected indices are nearest: every selected index has distance ≤ every
unselected index. -/
theorem predict_row_vote (row : List ℚ) (labels : List ℤ) (k : Nat)
    (hlen : labels.length = row.length) (hrow : row ≠ []) (hk : 1 ≤ k) :
    (knnLabels row labels k).length = min row.length k ∧
      (∀ v ∈ knnLabels row labels k,
          (knnLabels row labels k).count v ≤
            (knnLabels row labels k).count (predictRow row labels k).1) ∧
      (predictRow row labels k).2 =
        ((knnLabels row labels k).count (predictRow row labels k).1 : ℚ) / (k : ℚ) ∧
      ∀ p ∈ (argsortRow row).take (min row.length k),
        ∀ q ∈ (argsortRow row).drop (min row.length k), row.getD p 0 ≤ row.getD q 0 := by
  have hrl : 1 ≤ row.length := List.length_pos.mpr hrow
  have hsel : knnLabels row labels k ≠ [] := by
    apply List.ne_nil_of_length_pos
    rw [knnLabels_length]
    omega
  obtain ⟨h1, h2⟩ := modePair_spec (knnLabels row labels k) hsel
  refine ⟨knnLabels_length row labels k, ?_, ?_, ?_⟩
  · intro v hv
    have h3 := h2 v hv
    have e : (predictRow row labels k).1 = (modePair (knnLabels row labels k)).1 := rfl
    rw [e]
    omega
  · unfold predictRow
    rw [h1]
  · intro p hp q hq
    have hsort : List.Pairwise pairLe (List.insertionSort pairLe row.enum) :=
      List.sorted_insertionSort pairLe row.enum
    have hsplit : List.Pairwise pairLe
        ((List.insertionSort pairLe row.enum).take (min row.length k) ++
          (List.insertionSort pairLe row.enum).drop (min row.length k)) := by
      rw [List.take_append_drop]
      exact hsort
    have hcross := (List.pairwise_append.mp hsplit).2.2
    unfold argsortRow at hp hq
    rw [← List.map_take] at hp
    rw [← List.map_drop] at hq
    obtain ⟨sp, hsp, rfl⟩ := List.mem_map.mp hp
    obtain ⟨sq, hsq, rfl⟩ := List.mem_map.mp hq
    have hple : pairLe sp sq := hcross sp hsp sq hsq
    have hvp : row.getD sp.1 0 = sp.2 :=
      sorted_pairs_getD row sp (List.take_subset _ _ hsp)
    have hvq : row.getD sq.1 0 = sq.2 :=
      sorted_pairs_getD row sq (List.drop_subset _ _ hsq)
    rw [hvp, hvq]
    rcases hple with h | h
    · exact le_of_lt h
    · exact le_of_eq h.1

theorem predict_row_vote_witness :
    predictRow [(0 : ℚ), 10, 1, 2, 10] [0, 0, 1, 1, 1] 3 = (1, 2 / 3) ∧
      knnLabels [(0 : ℚ), 10, 1, 2, 10] [0, 0, 1, 1, 1] 3 = [0, 1, 1] ∧
      (∀ v ∈ knnLabels [(0 : ℚ), 10, 1, 2, 10] [0, 0, 1, 1, 1] 3,
        (knnLabels [(0 : ℚ), 10, 1, 2, 10] [0, 0, 1, 1, 1] 3).count v ≤
          (knnLabels [(0 : ℚ), 10, 1, 2, 10] [0, 0, 1, 1, 1] 3).count
            (predictRow [(0 : ℚ), 10, 1, 2, 10] [0, 0, 1, 1, 1] 3).1) := by
  have h := predict_row_vote [(0 : ℚ), 10, 1, 2, 10] [0, 0, 1, 1, 1] 3 (by decide)
    (by decide) (by decide)
  exact ⟨by decide, by decide, h.2.1⟩

end KnnDtw

namespace KnnDtw

/-- Claim C1 (code-bug evidence): on training set `[[0],[1],[5]]` the pairwise
DTW distances are `1, 5, 4`, but because `dm_count` is never incremented the
condensed vector keeps only the last one in slot 0, so the expanded matrix
reads `4` at `(0,1)` (should be `1`) and `0` at `(0,2)` (should be `5`). -/
theorem dist_matrix_same_dm_count_bug :
    dist_matrix_same [[(0 : ℚ)], [1], [5]] 10000 1 0 1 = 4 ∧
      dist_matrix_same [[(0 : ℚ)], [1], [5]] 10000 1 0 2 = 0 ∧
      dtw_distance [(0 : ℚ)] [1] 10000 dAbs = 1 ∧
      dtw_distance [(0 : ℚ)] [5] 10000 dAbs = 5 ∧
      dtw_distance [(1 : ℚ)] [5] 10000 dAbs = 4 :=
  ⟨by decide, by decide, by decide, by decide, by decide⟩

/-- Claim C9 counterexample: with the configured stride `2` the cross-set builder
entry is the DTW distance of the subsampled series (`1`), not of the series
exactly as passed (`5`) — the builder itself applies `[::subsample_step]`. -/
theorem dist_matrix_stride_counterexample :
    dist_matrix_full [[(0 : ℚ), 5]] [[1, 9]] 10000 2 0 0 = 1 ∧
      dtw_distance [(0 : ℚ), 5] [1, 9] 10000 dAbs = 5 :=
  ⟨by decide, by decide⟩

theorem subsample_one (l : List ℚ) : subsample 1 l = l := by
  unfold subsample
  simp only [Nat.sub_self, Nat.add_zero, Nat.div_one, mul_one]
  apply List.ext_getElem
  · simp
  · intro n h1 h2
    simp only [List.getElem_map, List.getElem_range]
    exact List.getD_eq_getElem l 0 (by simpa using h2)

/-- Claim C9 (amended): every entry of the cross-set distance matrix equals the
DTW Core distance of the stride-subsampled series (the stride is applied
inside the builder); only with the default stride `1` does it equal the
distance over the series exactly as passed. -/
theorem dist_matrix_entry_stride (x y : List (List ℚ)) (W s i j : Nat) :
    dist_matrix_full x y W s i j =
        dtw_distance (subsample s (x.getD i [])) (subsample s (y.getD j [])) W dAbs ∧
      dist_matrix_full x y W 1 i j = dtw_distance (x.getD i []) (y.getD j []) W dAbs := by
  constructor
  · rfl
  · unfold dist_matrix_full
    rw [subsample_one, subsample_one]

end KnnDtw
